import Mathlib

/-!
Verification of the RAG-AI-Assisted-Tutor (MathSight) repository against its
specification.  The frontend code (`frontend/src/pages/Dashboard.jsx`,
`frontend/src/pages/Register.jsx`) is embedded directly from the source.
The backend grading pipeline (`math_image_grader.py` / the FastAPI backend)
is not present in the repository snapshot, so its components are modelled
from the specification where needed; each such definition is marked
`Modelled from the spec:` in its doc comment.

Numbers computed by the JavaScript code are modelled as rationals; JS
strings are modelled as `String` / `List Char`.
-/

namespace MathSight

/-! ### JavaScript character classes

`isWordChar` is the JS regex class `\w` = `[A-Za-z0-9_]` (ASCII only);
`isJsSpace` covers the JS regex class `\s` (whitespace characters). -/

def isWordChar (c : Char) : Bool :=
  (Char.isAlpha c) || (Char.isDigit c) || c = '_'

def isJsSpace (c : Char) : Bool :=
  c = ' ' || c = '\t' || c = '\n' || c = '\r' ||
  c = '\x0b' || c = '\x0c' || c = '\u00a0' ||
  c = '\u1680' || ('\u2000' ≤ c && c ≤ '\u200a') ||
  c = '\u2028' || c = '\u2029' || c = '\u202f' ||
  c = '\u205f' || c = '\u3000' || c = '\ufeff'

/-! ### `passwordValid` (frontend/src/pages/Register.jsx, lines 418-423)

```js
function passwordValid(pw) {
  if (!pw || pw.length < 10) return false;
  if (!/\d/.test(pw)) return false;
  if (!/[^\w\s]/.test(pw)) return false;
  return true;
}
```
A `null`/`undefined` argument is modelled as `none`; the falsy empty string
is caught by the same `!pw` test. -/

def passwordValid (pw : Option String) : Bool :=
  match pw with
  | none => false
  | some s =>
    if s.data.isEmpty || s.data.length < 10 then false
    else if !(s.data.any Char.isDigit) then false
    else if !(s.data.any (fun c => !(isWordChar c) && !(isJsSpace c))) then false
    else true

/-! ### `colorForScore` (frontend/src/pages/Dashboard.jsx, lines 61-70)

```js
const colorForScore = (score) => {
  const s = Math.max(0, Math.min(100, score));
  let hue;
  if (s <= 50) {
    hue = (s / 50) * 60;
  } else {
    hue = 60 + ((s - 50) / 50) * 80;
  }
  return `hsl(${hue.toFixed(0)} 78% 47%)`;
};
```
The numeric hue computed before string formatting is `hueForScore`; the
returned HSL colour is modelled as the triple (hue, saturation, lightness)
with the hue unrounded (`toFixed(0)` is presentation-layer rounding). -/

def hueForScore (score : ℚ) : ℚ :=
  let s : ℚ := max 0 (min 100 score)
  if s ≤ 50 then s / 50 * 60 else 60 + (s - 50) / 50 * 80

def colorForScore (score : ℚ) : ℚ × ℚ × ℚ :=
  (hueForScore score, 78, 47)

/-! ### `personalizeText` (frontend/src/pages/Dashboard.jsx, lines 83-95)

```js
const personalizeText = (text) => {
  if (!text) return text;
  let t = String(text);
  t = t.replace(/\b[Ss]tudents\b/g, "you");
  t = t.replace(/\b[Ss]tudent\b/g, "you");
  t = t.replace(/\bthe student\b/gi, "you");
  t = t.replace(/\btheir\b/gi, "your");
  t = t.replace(/\bthey\b/gi, "you");
  t = t.replace(/^[\s]*Student[:\-\s]+/i, "");
  return t;
};
```

Every pattern above is a chain of `\w`-characters (or such chains joined by
a single space, or anchored at the start), so each global replace acts on
the decomposition of the string into maximal runs of word characters
(`Tok.word`) and maximal runs of non-word characters (`Tok.sep`):
a `\b...\b` pattern made of word characters matches exactly the maximal
word runs equal to it.  Each pass maps this token decomposition; since all
passes preserve the decomposition invariant `WF`, composing them at the
token level is equivalent to composing the string-level replaces. -/

inductive Tok where
  | word (w : List Char)
  | sep (g : List Char)
deriving DecidableEq, Repr

def Tok.chars : Tok → List Char
  | .word w => w
  | .sep g => g

def Tok.isWordTok : Tok → Bool
  | .word _ => true
  | .sep _ => false

/-- Prepend a word character to a token decomposition, extending a leading
word run if there is one. -/
def consWord (c : Char) : List Tok → List Tok
  | Tok.word w :: rest => Tok.word (c :: w) :: rest
  | ts => Tok.word [c] :: ts

/-- Prepend a non-word character, extending a leading separator run. -/
def consSep (c : Char) : List Tok → List Tok
  | Tok.sep g :: rest => Tok.sep (c :: g) :: rest
  | ts => Tok.sep [c] :: ts

/-- Decompose a string into maximal runs of word characters and maximal
runs of non-word characters. -/
def tokenize : List Char → List Tok
  | [] => []
  | c :: cs => if isWordChar c then consWord c (tokenize cs) else consSep c (tokenize cs)

def untokenize (ts : List Tok) : List Char :=
  (ts.map Tok.chars).flatten

/-- One `\bX\b → repl` global replace for a list of exact-case pattern
words `targets` (all word characters): rewrite every maximal word run that
equals one of the targets. -/
def replaceWordTok (targets : List (List Char)) (repl : List Char) : Tok → Tok
  | Tok.word w => if w ∈ targets then Tok.word repl else Tok.word w
  | t => t

/-- One `\bX\b → repl` case-insensitive global replace. -/
def replaceWordTokCI (target : List Char) (repl : List Char) : Tok → Tok
  | Tok.word w => if w.map Char.toLower = target then Tok.word repl else Tok.word w
  | t => t

/-- `t.replace(/\b[Ss]tudents\b/g, "you")` -/
def passStudents (ts : List Tok) : List Tok :=
  ts.map (replaceWordTok ["students".data, "Students".data] "you".data)

/-- `t.replace(/\b[Ss]tudent\b/g, "you")` -/
def passStudent (ts : List Tok) : List Tok :=
  ts.map (replaceWordTok ["student".data, "Student".data] "you".data)

/-- `t.replace(/\bthe student\b/gi, "you")`: the pattern spans a word run
`the`, exactly one space, and a word run `student`, case-insensitively;
matching proceeds left to right without reprocessing replaced text. -/
def passTheStudent : List Tok → List Tok
  | [] => []
  | Tok.sep g :: rest => Tok.sep g :: passTheStudent rest
  | Tok.word w :: Tok.sep g :: Tok.word v :: rest =>
    if w.map Char.toLower = "the".data ∧ g = [' '] ∧ v.map Char.toLower = "student".data then
      Tok.word "you".data :: passTheStudent rest
    else
      Tok.word w :: passTheStudent (Tok.sep g :: Tok.word v :: rest)
  | Tok.word w :: rest => Tok.word w :: passTheStudent rest

/-- `t.replace(/\btheir\b/gi, "your")` -/
def passTheir (ts : List Tok) : List Tok :=
  ts.map (replaceWordTokCI "their".data "your".data)

/-- `t.replace(/\bthey\b/gi, "you")` -/
def passThey (ts : List Tok) : List Tok :=
  ts.map (replaceWordTokCI "they".data "you".data)

/-- The character class `[:\-\s]` of the leading-`Student:` regex. -/
def isColonDashSpace (c : Char) : Bool :=
  c = ':' || c = '-' || isJsSpace c

/-- Does `Student[:\-\s]+` (case-insensitive) match at this token position?
The word run must be exactly `student` up to case (a longer run would put a
word character where the class `[:\-\s]` is required), followed by a
separator run starting with a class character. -/
def leadMatch : List Tok → Bool
  | Tok.word w :: Tok.sep g :: _ =>
    decide (w.map Char.toLower = "student".data) &&
      (match g.head? with
       | some c => isColonDashSpace c
       | none => false)
  | _ => false

/-- Remove the matched `Student[:\-\s]+` prefix: drop the word run and the
greedy run of class characters from the following separator. -/
def dropLead : List Tok → List Tok
  | Tok.word _ :: Tok.sep g :: rest =>
    (match g.dropWhile isColonDashSpace with
     | [] => rest
     | g2 => Tok.sep g2 :: rest)
  | ts => ts

/-- `t.replace(/^[\s]*Student[:\-\s]+/i, "")`: optional leading whitespace
(the whole leading separator run must be whitespace for `\s*` to reach the
word), then the `Student[:\-\s]+` pattern; a single anchored match. -/
def passLead (ts : List Tok) : List Tok :=
  match ts with
  | Tok.sep g :: rest =>
    if g.all isJsSpace && leadMatch rest then dropLead rest else ts
  | _ => if leadMatch ts then dropLead ts else ts

def personalizePipeline (ts : List Tok) : List Tok :=
  passLead (passThey (passTheir (passTheStudent (passStudent (passStudents ts)))))

/-- The full `personalizeText` function on strings; the `!text` guard
returns the falsy empty string unchanged (`null`/`undefined` are handled
by `personalizeTextOpt`). -/
def personalizeText (s : String) : String :=
  if s.data.isEmpty then s
  else ⟨untokenize (personalizePipeline (tokenize s.data))⟩

def personalizeTextOpt : Option String → Option String
  | none => none
  | some s => some (personalizeText s)

/-- The standalone words of a string: its maximal word-character runs. -/
def wordToks (ts : List Tok) : List (List Char) :=
  ts.filterMap fun t =>
    match t with
    | Tok.word w => some w
    | Tok.sep _ => none

def standaloneWords (s : String) : List (List Char) :=
  wordToks (tokenize s.data)

def forbiddenStudentWords : List (List Char) :=
  ["student".data, "Student".data, "students".data, "Students".data]

/-- Well-formedness of one token: nonempty and pure in character kind. -/
def TokOk : Tok → Prop
  | Tok.word w => w ≠ [] ∧ ∀ c ∈ w, isWordChar c = true
  | Tok.sep g => g ≠ [] ∧ ∀ c ∈ g, isWordChar c = false

/-- Well-formedness of a token decomposition: every token is nonempty and
pure, and word and separator runs alternate (which makes them maximal). -/
def WF (ts : List Tok) : Prop :=
  (∀ t ∈ ts, TokOk t) ∧ List.Chain' (fun a b => a.isWordTok ≠ b.isWordTok) ts

def headIsWord : List Tok → Bool
  | Tok.word _ :: _ => true
  | _ => false

def headIsSep : List Tok → Bool
  | Tok.sep _ :: _ => true
  | _ => false

/-! ### Backend pipeline, modelled from the spec

The backend grading pipeline (`math_image_grader.py` / the FastAPI `app`)
is not part of the repository snapshot — only its README and the frontend
are — so the components below are modelled from the specification
(§3-§4.8, §6).  Numbers are rationals; JSON-like payloads are the value
tree `Raw`. -/

/-- Modelled from the spec: §3 `RawServiceResponse`, the untyped payload
from the external service — a mapping, a sequence, a plain string, or
absent/null; numbers and booleans occur nested inside. -/
inductive Raw where
  | null
  | str (s : String)
  | num (q : ℚ)
  | bool (b : Bool)
  | arr (xs : List Raw)
  | obj (kvs : List (String × Raw))
deriving Repr

/-- Modelled from the spec: §3 `solution` field of `NormalizedResult`. -/
structure Solution where
  steps : List String
  final_answer : String
deriving DecidableEq, Repr

/-- Modelled from the spec: §3 `NormalizedResult`, the canonical typed
structure produced by normalization. -/
structure NormalizedResult where
  problem_text : String
  topic : String
  difficulty_assessment : String
  solution : Solution
  student_attempt : Option String
  component_scores : List (String × ℚ)
  hints : List String
deriving DecidableEq, Repr

/-- Modelled from the spec: the all-defaults `NormalizedResult` (§3: every
field has a defined default when absent from the raw response). -/
def defaultNR : NormalizedResult :=
  { problem_text := ""
    topic := ""
    difficulty_assessment := ""
    solution := { steps := [], final_answer := "" }
    student_attempt := none
    component_scores := []
    hints := [] }

/-- Modelled from the spec: §4.5/glossary clamping — restrict a numeric
value to [0,100]. -/
def clampScore (q : ℚ) : ℚ := max 0 (min 100 q)

/-- Modelled from the spec: §4.5 numeric coercion — non-numeric values
become 0, out-of-range numeric values are clamped to [0,100]. -/
def coerceScore : Raw → ℚ
  | Raw.num q => clampScore q
  | _ => 0

/-- Modelled from the spec: §4.5 case-insensitive, alias-tolerant key
matching (lower-case and identify spaces with underscores, so that
"final answer", "answer" and "final_answer" can all name one field). -/
def canonKey (s : String) : String :=
  ⟨s.data.map fun c => if c = ' ' then '_' else c.toLower⟩

def lookupRaw (kvs : List (String × Raw)) (aliases : List String) : Option Raw :=
  (kvs.find? fun kv => aliases.contains (canonKey kv.1)).map Prod.snd

def getStr (kvs : List (String × Raw)) (aliases : List String) : String :=
  match lookupRaw kvs aliases with
  | some (Raw.str s) => s
  | _ => ""

def getStrOpt (kvs : List (String × Raw)) (aliases : List String) : Option String :=
  match lookupRaw kvs aliases with
  | some (Raw.str s) => some s
  | _ => none

def strElem : Raw → Option String
  | Raw.str s => some s
  | _ => none

def getStrList (kvs : List (String × Raw)) (aliases : List String) : List String :=
  match lookupRaw kvs aliases with
  | some (Raw.arr xs) => xs.filterMap strElem
  | _ => []

/-- Modelled from the spec: §4.5 mapping branch — read each target field by
alias-tolerant name with defaults for missing keys; `solution` and
`component_scores` are normalized recursively by the same rule, every
prospective score passing through `coerceScore`. -/
def normalizeObj (kvs : List (String × Raw)) : NormalizedResult :=
  { problem_text := getStr kvs ["problem_text", "problem"]
    topic := getStr kvs ["topic"]
    difficulty_assessment := getStr kvs ["difficulty_assessment", "difficulty"]
    solution :=
      match lookupRaw kvs ["solution"] with
      | some (Raw.obj skvs) =>
        { steps := getStrList skvs ["steps"]
          final_answer := getStr skvs ["final_answer", "answer"] }
      | _ => { steps := [], final_answer := "" }
    student_attempt := getStrOpt kvs ["student_attempt", "attempt"]
    component_scores :=
      match lookupRaw kvs ["component_scores", "scores"] with
      | some (Raw.obj skvs) => skvs.map fun kv => (kv.1, coerceScore kv.2)
      | _ => []
    hints := getStrList kvs ["hints"] }

def isStrElem : Raw → Bool
  | Raw.str _ => true
  | _ => false

def isObjElem : Raw → Bool
  | Raw.obj _ => true
  | _ => false

/-- Modelled from the spec: §4.5 sequence-of-mappings step text — each
mapping contributes a step description. -/
def stepText : Raw → Option String
  | Raw.obj kvs => some (getStr kvs ["step", "description", "text"])
  | _ => none

/-- Modelled from the spec: §4.5 sequence branch — "a distinguishable last
element matches an answer pattern": the last mapping carries an
answer-aliased key. -/
def answerOfLast (xs : List Raw) : String :=
  match xs.getLast? with
  | some (Raw.obj kvs) => getStr kvs ["final_answer", "answer"]
  | _ => ""

/-- Modelled from the spec: §4.5 sequence branch — short strings become the
ordered hint list; mappings become step descriptions. -/
def normalizeArr (xs : List Raw) : NormalizedResult :=
  if xs.all isStrElem then
    { defaultNR with hints := xs.filterMap strElem }
  else if xs.all isObjElem then
    { defaultNR with
        solution := { steps := xs.filterMap stepText, final_answer := answerOfLast xs } }
  else defaultNR

/-- Modelled from the spec: §4.5 `ResponseNormalizer` — by case on the raw
response's shape; `parse` is the embedded-structured-data parse attempted
on the plain-string branch (on success the parsed mapping is normalized,
otherwise the whole string becomes `problem_text`); `none` is the
absent input. -/
def normalizeWith (parse : String → Option Raw) : Option Raw → NormalizedResult
  | none => defaultNR
  | some Raw.null => defaultNR
  | some (Raw.obj kvs) => normalizeObj kvs
  | some (Raw.arr xs) => normalizeArr xs
  | some (Raw.str s) =>
    match parse s with
    | some (Raw.obj kvs) => normalizeObj kvs
    | _ => { defaultNR with problem_text := s }
  | some _ => defaultNR

/-- Modelled from the spec: §3 — serialize a `NormalizedResult` back to a
mapping with its canonical field names (the mapping-branch input for the
idempotence property). -/
def toRawNR (nr : NormalizedResult) : Raw :=
  Raw.obj
    [("problem_text", Raw.str nr.problem_text),
     ("topic", Raw.str nr.topic),
     ("difficulty_assessment", Raw.str nr.difficulty_assessment),
     ("solution", Raw.obj
        [("steps", Raw.arr (nr.solution.steps.map Raw.str)),
         ("final_answer", Raw.str nr.solution.final_answer)]),
     ("student_attempt",
        match nr.student_attempt with
        | some s => Raw.str s
        | none => Raw.null),
     ("component_scores", Raw.obj (nr.component_scores.map fun kv => (kv.1, Raw.num kv.2))),
     ("hints", Raw.arr (nr.hints.map Raw.str))]

/-! #### Grader (spec §4.6) -/

/-- Modelled from the spec: §4.6 grader output — overall score, the three
rubric component scores, and the "no attempt to grade" flag. -/
structure GradeOut where
  overall : ℚ
  understanding : ℚ
  execution : ℚ
  accuracy : ℚ
  no_attempt : Bool
deriving DecidableEq, Repr

/-- Modelled from the spec: §4.6 — a component absent from the normalized
map defaults to 0. -/
def lookupComp (m : List (String × ℚ)) (k : String) : ℚ :=
  match m.find? fun kv => kv.1 = k with
  | some kv => kv.2
  | none => 0

/-- Modelled from the spec: §4.6 `Grader` — the overall score is the
arithmetic mean of the fixed rubric {understanding, execution, accuracy},
absent components counting 0; if `student_attempt` is absent, the overall
and all component scores are forced to 0 and the flag is carried. -/
def grade (nr : NormalizedResult) : GradeOut :=
  match nr.student_attempt with
  | none => { overall := 0, understanding := 0, execution := 0, accuracy := 0, no_attempt := true }
  | some _ =>
    let u := lookupComp nr.component_scores "understanding"
    let e := lookupComp nr.component_scores "execution"
    let a := lookupComp nr.component_scores "accuracy"
    { overall := (u + e + a) / 3, understanding := u, execution := e, accuracy := a,
      no_attempt := false }

/-! #### HintRanker (spec §4.7) -/

/-- Modelled from the spec: §4.7 — strip leading/trailing whitespace. -/
def stripWs (s : String) : String :=
  ⟨(s.data.dropWhile isJsSpace).reverse.dropWhile isJsSpace |>.reverse⟩

/-- Collapse internal whitespace runs to single spaces (after stripping),
for the whitespace-normalized comparison key. -/
def collapseWs : List Char → List Char
  | [] => []
  | c :: cs =>
    if isJsSpace c then
      match collapseWs cs with
      | [] => []
      | d :: r => if d = ' ' then d :: r else ' ' :: d :: r
    else c :: collapseWs cs

/-- Modelled from the spec: §4.7 case-insensitive, whitespace-normalized
comparison key for deduplication. -/
def hintKey (s : String) : String :=
  ⟨(collapseWs (stripWs s).data).map Char.toLower⟩

/-- Deduplicate by `hintKey`, keeping the first occurrence. -/
def dedupHints (seen : List String) : List String → List String
  | [] => []
  | h :: t =>
    if hintKey h ∈ seen then dedupHints seen t
    else h :: dedupHints (hintKey h :: seen) t

/-- Modelled from the spec: §4.7 `HintRanker` pipeline — strip whitespace,
drop empty strings, deduplicate keeping first occurrences, truncate to the
first 3 surviving entries. -/
def rankHints (hints : List String) : List String :=
  (dedupHints [] ((hints.map stripWs).filter fun h => h ≠ "")).take 3

/-- Modelled from the spec: §4.7 the defined "no hint available"
sentinel. -/
def noHintSentinel : String := "No hint available"

def firstHint (hintsSorted : List String) : String :=
  hintsSorted.headD noHintSentinel

/-! #### ResultAssembler (spec §4.8, §6) -/

/-- Modelled from the spec: §3/§6 `GradingResult`, the final immutable
artifact; the artifact's `component_scores` is exactly the fixed rubric. -/
structure GradingResult where
  problem_text : String
  topic : String
  difficulty_assessment : String
  solution : Solution
  student_attempt : Option String
  score : ℚ
  understanding : ℚ
  execution : ℚ
  accuracy : ℚ
  hints_sorted : List String
  first_hint : String
  generated_at : String
  source_file : String
deriving DecidableEq, Repr

/-- Modelled from the spec: §4.8 `ResultAssembler` — combine the
normalized structure, grading, ranked hints, and request metadata. -/
def assemble (nr : NormalizedResult) (generatedAt sourceFile : String) : GradingResult :=
  let g := grade nr
  let hs := rankHints nr.hints
  { problem_text := nr.problem_text
    topic := nr.topic
    difficulty_assessment := nr.difficulty_assessment
    solution := nr.solution
    student_attempt := nr.student_attempt
    score := g.overall
    understanding := g.understanding
    execution := g.execution
    accuracy := g.accuracy
    hints_sorted := hs
    first_hint := firstHint hs
    generated_at := generatedAt
    source_file := sourceFile }

/-- Modelled from the spec: §6 result artifact — serialize a
`GradingResult` to the JSON-shaped value tree. -/
def gradingResultToJson (g : GradingResult) : Raw :=
  Raw.obj
    [("grader_result", Raw.obj
        [("problem_text", Raw.str g.problem_text),
         ("topic", Raw.str g.topic),
         ("difficulty_assessment", Raw.str g.difficulty_assessment),
         ("solution", Raw.obj
            [("steps", Raw.arr (g.solution.steps.map Raw.str)),
             ("final_answer", Raw.str g.solution.final_answer)]),
         ("student_attempt",
            match g.student_attempt with
            | some s => Raw.str s
            | none => Raw.null),
         ("score", Raw.num g.score),
         ("component_scores", Raw.obj
            [("understanding", Raw.num g.understanding),
             ("execution", Raw.num g.execution),
             ("accuracy", Raw.num g.accuracy)]),
         ("hints_sorted", Raw.arr (g.hints_sorted.map Raw.str)),
         ("first_hint", Raw.str g.first_hint)]),
     ("generated_at", Raw.str g.generated_at),
     ("source_file", Raw.str g.source_file)]

def exactKey (kvs : List (String × Raw)) (k : String) : Option Raw :=
  (kvs.find? fun kv => kv.1 = k).map Prod.snd

def parseStr : Option Raw → Option String
  | some (Raw.str s) => some s
  | _ => none

def parseNum : Option Raw → Option ℚ
  | some (Raw.num q) => some q
  | _ => none

def parseStrList : Option Raw → Option (List String)
  | some (Raw.arr xs) => xs.mapM strElem
  | _ => none

def parseStrOrNull : Option Raw → Option (Option String)
  | some (Raw.str s) => some (some s)
  | some Raw.null => some none
  | _ => none

/-- Modelled from the spec: §6 — parse the JSON-shaped result artifact back
into a `GradingResult`, failing on any shape mismatch. -/
def parseGradingResult (r : Raw) : Option GradingResult :=
  match r with
  | Raw.obj kvs => do
    let gr ← exactKey kvs "grader_result"
    let gkvs ← match gr with
      | Raw.obj gkvs => some gkvs
      | _ => none
    let problemText ← parseStr (exactKey gkvs "problem_text")
    let topic ← parseStr (exactKey gkvs "topic")
    let difficulty ← parseStr (exactKey gkvs "difficulty_assessment")
    let skvs ← match exactKey gkvs "solution" with
      | some (Raw.obj skvs) => some skvs
      | _ => none
    let steps ← parseStrList (exactKey skvs "steps")
    let finalAnswer ← parseStr (exactKey skvs "final_answer")
    let attempt ← parseStrOrNull (exactKey gkvs "student_attempt")
    let score ← parseNum (exactKey gkvs "score")
    let ckvs ← match exactKey gkvs "component_scores" with
      | some (Raw.obj ckvs) => some ckvs
      | _ => none
    let understanding ← parseNum (exactKey ckvs "understanding")
    let execution ← parseNum (exactKey ckvs "execution")
    let accuracy ← parseNum (exactKey ckvs "accuracy")
    let hintsSorted ← parseStrList (exactKey gkvs "hints_sorted")
    let firstH ← parseStr (exactKey gkvs "first_hint")
    let generatedAt ← parseStr (exactKey kvs "generated_at")
    let sourceFile ← parseStr (exactKey kvs "source_file")
    some
      { problem_text := problemText
        topic := topic
        difficulty_assessment := difficulty
        solution := { steps := steps, final_answer := finalAnswer }
        student_attempt := attempt
        score := score
        understanding := understanding
        execution := execution
        accuracy := accuracy
        hints_sorted := hintsSorted
        first_hint := firstH
        generated_at := generatedAt
        source_file := sourceFile }
  | _ => none

/-! #### ServiceClient retry policy (spec §4.4) -/

/-- Modelled from the spec: §4.4/§6 — the outcome of one external call:
timeout, transient failure, or a received raw response (of any shape,
including malformed ones). -/
inductive Outcome where
  | timeout
  | transient
  | ok (r : Raw)

/-- Modelled from the spec: §4.4 — only timeouts and transient failures are
retryable; a received response never is. -/
def retryable : Outcome → Bool
  | Outcome.ok _ => false
  | _ => true

/-- Modelled from the spec: §4.4 `ServiceClient` retry loop — `outcomes i`
is the result of attempt `i`; `remaining` is the remaining retry budget.
Returns the received raw response (or `none` = `ServiceUnavailable` after
exhaustion) together with the number of attempts made. -/
def runAttempts (outcomes : Nat → Outcome) (start : Nat) : Nat → Option Raw × Nat
  | 0 =>
    match outcomes start with
    | Outcome.ok r => (some r, 1)
    | _ => (none, 1)
  | n + 1 =>
    match outcomes start with
    | Outcome.ok r => (some r, 1)
    | _ =>
      ((runAttempts outcomes (start + 1) n).1, (runAttempts outcomes (start + 1) n).2 + 1)

/-- Modelled from the spec: §4.4 — default 2 additional attempts beyond
the first. -/
def defaultRetries : Nat := 2

def serviceCall (outcomes : Nat → Outcome) (retries : Nat) : Option Raw × Nat :=
  runAttempts outcomes 0 retries

/-- Concrete normalized result used in concrete-input checks. -/
def nrC2 : NormalizedResult :=
  { defaultNR with
      student_attempt := some "x"
      component_scores := [("understanding", 80), ("accuracy", 100)] }

/-! ## Theorems -/

/-- C10: `passwordValid` returns true for a password iff it is non-empty
with length at least 10, contains a decimal digit, and contains a
character that is neither a word character nor whitespace; it returns
false for null and for the empty string. -/
theorem claim10_passwordValid :
    passwordValid none = false ∧ passwordValid (some "") = false ∧
    ∀ s : String, passwordValid (some s) = true ↔
      (s.data ≠ [] ∧ 10 ≤ s.data.length ∧
        (∃ c ∈ s.data, Char.isDigit c = true) ∧
        ∃ c ∈ s.data, isWordChar c = false ∧ isJsSpace c = false) := by
  refine ⟨rfl, rfl, fun s => ?_⟩
  simp only [passwordValid]
  split_ifs with hA hB hC
  · simp only [false_iff]
    rintro ⟨hne, hlen, -, -⟩
    rcases (show s.data.isEmpty = true ∨ s.data.length < 10 by simpa using hA) with h | h
    · exact hne (List.isEmpty_iff.mp h)
    · omega
  · simp only [false_iff]
    rintro ⟨-, -, ⟨c, hc, hdig⟩, -⟩
    have : s.data.any Char.isDigit = true := List.any_eq_true.mpr ⟨c, hc, hdig⟩
    rw [this] at hB
    exact absurd hB (by simp)
  · simp only [false_iff]
    rintro ⟨-, -, -, c, hc, h1, h2⟩
    have : (s.data.any fun c => !isWordChar c && !isJsSpace c) = true :=
      List.any_eq_true.mpr ⟨c, hc, by simp [h1, h2]⟩
    rw [this] at hC
    exact absurd hC (by simp)
  · simp only [true_iff]
    have hne : s.data ≠ [] := by
      intro h
      exact hA (by simp [h])
    have hlen : 10 ≤ s.data.length := by
      by_contra h
      exact hA (by rw [decide_eq_true (by omega : s.data.length < 10), Bool.or_true])
    exact ⟨hne, hlen, by simpa using hB, by simpa using hC⟩

/-- C8: `colorForScore` clamps its argument first (so it agrees with
itself at the clamped score), and the hue it computes lies in [0,140], is
monotone non-decreasing in the score, and takes the values 0, 60, 140 at
scores 0, 50, 100. -/
theorem claim8_colorForScore :
    (∀ s : ℚ, colorForScore s = colorForScore (min 100 (max 0 s))) ∧
    (∀ s : ℚ, 0 ≤ hueForScore s ∧ hueForScore s ≤ 140) ∧
    (∀ s t : ℚ, s ≤ t → hueForScore s ≤ hueForScore t) ∧
    hueForScore 0 = 0 ∧ hueForScore 50 = 60 ∧ hueForScore 100 = 140 := by
  have hclamp : ∀ s : ℚ, max 0 (min 100 (min 100 (max 0 s))) = max 0 (min 100 s) := by
    intro s
    rcases le_total s 0 with h | h <;> rcases le_total s 100 with h2 | h2 <;>
      simp [min_def, max_def] <;> split_ifs <;> linarith
  have hbounds : ∀ s : ℚ, 0 ≤ hueForScore s ∧ hueForScore s ≤ 140 := by
    intro s
    have h0 : (0 : ℚ) ≤ max 0 (min 100 s) := le_max_left _ _
    have h100 : max 0 (min 100 s) ≤ 100 := by
      apply max_le (by norm_num) (min_le_left _ _)
    simp only [hueForScore]
    split_ifs with h <;> constructor <;> nlinarith
  refine ⟨fun s => ?_, hbounds, fun s t hst => ?_, by norm_num [hueForScore],
    by norm_num [hueForScore], by norm_num [hueForScore]⟩
  · simp only [colorForScore, hueForScore]
    rw [hclamp s]
  · have hmono : max 0 (min 100 s) ≤ max 0 (min 100 t) :=
      max_le_max le_rfl (min_le_min le_rfl hst)
    have h0 : (0 : ℚ) ≤ max 0 (min 100 s) := le_max_left _ _
    have h100 : max 0 (min 100 t) ≤ 100 := max_le (by norm_num) (min_le_left _ _)
    simp only [hueForScore]
    split_ifs with h1 h2 h2 <;> nlinarith

/-- Witness for C8 at concrete scores. -/
theorem claim8_witness : hueForScore 30 ≤ hueForScore 70 :=
  claim8_colorForScore.2.2.1 30 70 (by norm_num)

theorem coerceScore_range (r : Raw) : 0 ≤ coerceScore r ∧ coerceScore r ≤ 100 := by
  cases r <;> simp [coerceScore, clampScore]

theorem normalizeObj_scores (kvs : List (String × Raw)) :
    ∀ p ∈ (normalizeObj kvs).component_scores, 0 ≤ p.2 ∧ p.2 ≤ 100 := by
  intro p hp
  simp only [normalizeObj] at hp
  rcases h : lookupRaw kvs ["component_scores", "scores"] with - | r
  · rw [h] at hp
    simp at hp
  · rw [h] at hp
    cases r
    case obj skvs =>
      simp only [List.mem_map] at hp
      obtain ⟨kv, hkv, rfl⟩ := hp
      simpa using coerceScore_range kv.2
    all_goals simp at hp

/-- C1: for every raw service response of shape mapping, sequence, plain
string, or absent/null, the normalizer produces a `NormalizedResult`
whose fields are all defined (it is a total function into the typed
structure), with every component score in [0,100]; it never fails on a
shape mismatch, and the absent and null inputs both yield the
all-defaults result. -/
theorem claim1_normalizer_total :
    ∀ (parse : String → Option Raw) (r : Option Raw),
      (∀ p ∈ (normalizeWith parse r).component_scores, 0 ≤ p.2 ∧ p.2 ≤ 100) ∧
      normalizeWith parse none = defaultNR ∧
      normalizeWith parse (some Raw.null) = defaultNR := by
  intro parse r
  refine ⟨?_, rfl, rfl⟩
  match r with
  | none => simp [normalizeWith, defaultNR]
  | some Raw.null => simp [normalizeWith, defaultNR]
  | some (Raw.num q) => simp [normalizeWith, defaultNR]
  | some (Raw.bool b) => simp [normalizeWith, defaultNR]
  | some (Raw.obj kvs) => exact normalizeObj_scores kvs
  | some (Raw.arr xs) =>
    simp only [normalizeWith, normalizeArr]
    split_ifs <;> simp [defaultNR]
  | some (Raw.str s) =>
    simp only [normalizeWith]
    rcases hp : parse s with - | pr
    · simp [defaultNR]
    · cases pr
      case obj kvs =>
        intro p hmem
        exact normalizeObj_scores kvs p hmem
      all_goals simp [defaultNR]

/-- Witness for C1 on a concrete mapping with an out-of-range score. -/
theorem claim1_witness :
    (("understanding", (100 : ℚ)) ∈
      (normalizeWith (fun _ => none)
        (some (Raw.obj [("component_scores",
          Raw.obj [("understanding", Raw.num 140)])]))).component_scores) ∧
    (0 : ℚ) ≤ 100 ∧ (100 : ℚ) ≤ 100 :=
  ⟨by decide,
   (claim1_normalizer_total (fun _ => none)
      (some (Raw.obj [("component_scores", Raw.obj [("understanding", Raw.num 140)])]))).1
     ("understanding", 100) (by decide)⟩

theorem lookupComp_range (m : List (String × ℚ)) (k : String)
    (h : ∀ p ∈ m, 0 ≤ p.2 ∧ p.2 ≤ 100) :
    0 ≤ lookupComp m k ∧ lookupComp m k ≤ 100 := by
  rcases hf : m.find? (fun kv => kv.1 = k) with - | kv
  · simp [lookupComp, hf]
  · simp only [lookupComp, hf]
    exact h kv (List.mem_of_find?_eq_some hf)

/-- C2: the grader's overall score is the arithmetic mean of the three
rubric components understanding, execution, accuracy; each component is
looked up in `component_scores` with absent components contributing 0;
for a `NormalizedResult` respecting its score-range invariant the overall
score is in [0,100]; and when `student_attempt` is absent the overall
score and all three component scores are exactly 0. -/
theorem claim2_grader :
    ∀ nr : NormalizedResult,
      ((grade nr).overall =
        ((grade nr).understanding + (grade nr).execution + (grade nr).accuracy) / 3) ∧
      (nr.student_attempt ≠ none →
        (grade nr).understanding = lookupComp nr.component_scores "understanding" ∧
        (grade nr).execution = lookupComp nr.component_scores "execution" ∧
        (grade nr).accuracy = lookupComp nr.component_scores "accuracy") ∧
      ((∀ p ∈ nr.component_scores, 0 ≤ p.2 ∧ p.2 ≤ 100) →
        0 ≤ (grade nr).overall ∧ (grade nr).overall ≤ 100) ∧
      (nr.student_attempt = none →
        (grade nr).overall = 0 ∧ (grade nr).understanding = 0 ∧
        (grade nr).execution = 0 ∧ (grade nr).accuracy = 0) := by
  intro nr
  rcases ha : nr.student_attempt with - | att
  · refine ⟨?_, fun hcon => absurd rfl hcon, fun _ => ?_, fun _ => ?_⟩ <;>
      simp [grade, ha]
  · refine ⟨?_, fun _ => ?_, fun hrange => ?_, fun hcon => Option.noConfusion hcon⟩
    · simp [grade, ha]
    · simp [grade, ha]
    · have hu := lookupComp_range nr.component_scores "understanding" hrange
      have he := lookupComp_range nr.component_scores "execution" hrange
      have hac := lookupComp_range nr.component_scores "accuracy" hrange
      simp only [grade, ha]
      refine ⟨by linarith [hu.1, he.1, hac.1], by linarith [hu.2, he.2, hac.2]⟩

/-- Witness for C2 on a concrete normalized result. -/
theorem claim2_witness :
    (grade nrC2).overall = 60 ∧ (grade defaultNR).overall = 0 := by
  have h1 := claim2_grader nrC2
  have h2 := claim2_grader defaultNR
  refine ⟨?_, (h2.2.2.2 rfl).1⟩
  have hmean := h1.1
  have hcomp := h1.2.1 (by decide)
  rw [hmean, hcomp.1, hcomp.2.1, hcomp.2.2]
  have e1 : lookupComp nrC2.component_scores "understanding" = 80 := rfl
  have e2 : lookupComp nrC2.component_scores "execution" = 0 := rfl
  have e3 : lookupComp nrC2.component_scores "accuracy" = 100 := rfl
  rw [e1, e2, e3]
  norm_num

/-- C4: score coercion during normalization maps non-numeric raw values to
0 and clamps numeric values into [0,100]; a raw component score of 140
becomes exactly 100 after normalization. -/
theorem claim4_scoreCoercion :
    (∀ r : Raw, (∀ q : ℚ, r ≠ Raw.num q) → coerceScore r = 0) ∧
    (∀ q : ℚ, coerceScore (Raw.num q) = max 0 (min 100 q)) ∧
    (∀ q : ℚ, 0 ≤ coerceScore (Raw.num q) ∧ coerceScore (Raw.num q) ≤ 100) ∧
    (normalizeWith (fun _ => none)
        (some (Raw.obj [("component_scores", Raw.obj [("score", Raw.num 140)])]))
      ).component_scores = [("score", 100)] := by
  refine ⟨?_, fun _ => rfl, fun q => coerceScore_range (Raw.num q), by decide⟩
  intro r hr
  cases r <;> first
    | rfl
    | exact absurd rfl (hr _)

/-- Witness for C4 at a concrete non-numeric value. -/
theorem claim4_witness : coerceScore (Raw.str "high") = 0 :=
  claim4_scoreCoercion.1 (Raw.str "high") (fun _ h => Raw.noConfusion h)

theorem runAttempts_bound (outcomes : Nat → Outcome) :
    ∀ (n start : Nat), (runAttempts outcomes start n).2 ≤ n + 1 := by
  intro n
  induction n with
  | zero =>
    intro start
    simp only [runAttempts]
    rcases outcomes start <;> simp
  | succ n ih =>
    intro start
    simp only [runAttempts]
    rcases outcomes start <;> dsimp only
    · exact Nat.add_le_add_right (ih (start + 1)) 1
    · exact Nat.add_le_add_right (ih (start + 1)) 1
    · omega

theorem runAttempts_none_iff (outcomes : Nat → Outcome) :
    ∀ (n start : Nat),
      (runAttempts outcomes start n).1 = none ↔
        ∀ i ≤ n, retryable (outcomes (start + i)) = true := by
  intro n
  induction n with
  | zero =>
    intro start
    simp only [runAttempts]
    rcases ho : outcomes start with - | - | r
    · constructor
      · intro h i hi
        interval_cases i
        rw [Nat.add_zero, ho]
        rfl
      · intro h
        rfl
    · constructor
      · intro h i hi
        interval_cases i
        rw [Nat.add_zero, ho]
        rfl
      · intro h
        rfl
    · constructor
      · intro h
        cases h
      · intro h
        have h0 := h 0 (le_refl 0)
        rw [Nat.add_zero, ho] at h0
        cases h0
  | succ n ih =>
    intro start
    simp only [runAttempts]
    rcases ho : outcomes start with - | - | r
    · dsimp only
      rw [ih (start + 1)]
      constructor
      · intro h i hi
        match i with
        | 0 =>
          rw [Nat.add_zero, ho]
          rfl
        | j + 1 =>
          have := h j (by omega)
          rwa [show start + 1 + j = start + (j + 1) by omega] at this
      · intro h i hi
        rw [show start + 1 + i = start + (i + 1) by omega]
        exact h (i + 1) (by omega)
    · dsimp only
      rw [ih (start + 1)]
      constructor
      · intro h i hi
        match i with
        | 0 =>
          rw [Nat.add_zero, ho]
          rfl
        | j + 1 =>
          have := h j (by omega)
          rwa [show start + 1 + j = start + (j + 1) by omega] at this
      · intro h i hi
        rw [show start + 1 + i = start + (i + 1) by omega]
        exact h (i + 1) (by omega)
    · dsimp only
      constructor
      · intro h
        cases h
      · intro h
        have h0 := h 0 (by omega)
        rw [Nat.add_zero, ho] at h0
        cases h0

theorem runAttempts_ok (outcomes : Nat → Outcome) :
    ∀ (n start i : Nat) (r : Raw), i ≤ n →
      (∀ j < i, retryable (outcomes (start + j)) = true) →
      outcomes (start + i) = Outcome.ok r →
      runAttempts outcomes start n = (some r, i + 1) := by
  intro n
  induction n with
  | zero =>
    intro start i r hi hj ho
    interval_cases i
    rw [Nat.add_zero] at ho
    simp [runAttempts, ho]
  | succ n ih =>
    intro start i r hi hj ho
    match i with
    | 0 =>
      rw [Nat.add_zero] at ho
      simp [runAttempts, ho]
    | k + 1 =>
      have h0 : retryable (outcomes start) = true := by
        have := hj 0 (by omega)
        rwa [Nat.add_zero] at this
      have hrec : runAttempts outcomes (start + 1) n = (some r, k + 1) := by
        apply ih (start + 1) k r (by omega)
        · intro j hjk
          have := hj (j + 1) (by omega)
          rwa [show start + (j + 1) = start + 1 + j by omega] at this
        · rwa [show start + 1 + k = start + (k + 1) by omega]
      simp only [runAttempts]
      rcases hos : outcomes start with - | - | r2
      · dsimp only
        rw [hrec]
      · dsimp only
        rw [hrec]
      · rw [hos] at h0
        cases h0

/-- C5: the service client makes at most `retries + 1` attempts (default
budget `defaultRetries = 2` extra attempts beyond the first); it fails
with `ServiceUnavailable` (modelled as `none`) exactly when every attempt
within the budget is a retryable failure (timeout or transient); a
received response is never retried — whatever its shape, the first
received raw response is returned (to be handed to the normalizer) after
exactly the attempts used to reach it. -/
theorem claim5_serviceClient :
    ∀ (outcomes : Nat → Outcome) (retries : Nat),
      ((serviceCall outcomes retries).2 ≤ retries + 1) ∧
      ((serviceCall outcomes retries).1 = none ↔
        ∀ i ≤ retries, retryable (outcomes i) = true) ∧
      (∀ i r, i ≤ retries → (∀ j < i, retryable (outcomes j) = true) →
        outcomes i = Outcome.ok r →
        serviceCall outcomes retries = (some r, i + 1)) ∧
      (∀ r : Raw, retryable (Outcome.ok r) = false) ∧
      defaultRetries = 2 := by
  intro outcomes retries
  refine ⟨runAttempts_bound outcomes retries 0, ?_, ?_, fun r => rfl, rfl⟩
  · have := runAttempts_none_iff outcomes retries 0
    simpa using this
  · intro i r hi hj ho
    exact runAttempts_ok outcomes retries 0 i r hi (by simpa using hj) (by simpa using ho)

/-- Witness for C5: one timeout, then a (malformed) null response — the
client returns it after 2 attempts and does not retry it. -/
theorem claim5_witness :
    serviceCall (fun i => if i = 0 then Outcome.timeout else Outcome.ok Raw.null) 2 =
      (some Raw.null, 2) :=
  (claim5_serviceClient (fun i => if i = 0 then Outcome.timeout else Outcome.ok Raw.null)
      2).2.2.1 1 Raw.null (by omega)
    (by
      intro j hj
      interval_cases j
      rfl)
    rfl

theorem dedupHints_sublist (l : List String) :
    ∀ seen, (dedupHints seen l).Sublist l := by
  induction l with
  | nil =>
    intro seen
    simp [dedupHints]
  | cons h t ih =>
    intro seen
    simp only [dedupHints]
    split_ifs with hs
    · exact (ih seen).trans (List.sublist_cons_self h t)
    · exact (ih _).cons₂ h

theorem dedupHints_find (l : List String) :
    ∀ seen h, h ∈ dedupHints seen l →
      hintKey h ∉ seen ∧ l.find? (fun x => hintKey x == hintKey h) = some h := by
  induction l with
  | nil =>
    intro seen h hmem
    simp [dedupHints] at hmem
  | cons x t ih =>
    intro seen h hmem
    simp only [dedupHints] at hmem
    by_cases hx : hintKey x ∈ seen
    · rw [if_pos hx] at hmem
      obtain ⟨hnotin, hfind⟩ := ih seen h hmem
      refine ⟨hnotin, ?_⟩
      have hne2 : ¬(fun y => hintKey y == hintKey h) x = true := by
        simp only [beq_iff_eq]
        intro he
        exact hnotin (he ▸ hx)
      rw [@List.find?_cons_of_neg _ (fun y => hintKey y == hintKey h) x t hne2, hfind]
    · rw [if_neg hx] at hmem
      rcases List.mem_cons.mp hmem with rfl | hmem2
      · refine ⟨hx, ?_⟩
        have hp : (fun y => hintKey y == hintKey h) h = true := by simp
        rw [@List.find?_cons_of_pos _ (fun y => hintKey y == hintKey h) h t hp]
      · obtain ⟨hnotin, hfind⟩ := ih _ h hmem2
        have hne : hintKey x ≠ hintKey h := by
          intro he
          exact hnotin (he ▸ List.mem_cons_self _ _)
        refine ⟨fun hc => hnotin (List.mem_cons_of_mem _ hc), ?_⟩
        have hne2 : ¬(fun y => hintKey y == hintKey h) x = true := by
          simpa using hne
        rw [@List.find?_cons_of_neg _ (fun y => hintKey y == hintKey h) x t hne2, hfind]

theorem dedupHints_pairwise (l : List String) :
    ∀ seen, List.Pairwise (fun a b => hintKey a ≠ hintKey b) (dedupHints seen l) := by
  induction l with
  | nil =>
    intro seen
    simp [dedupHints]
  | cons x t ih =>
    intro seen
    simp only [dedupHints]
    split_ifs with hx
    · exact ih seen
    · refine List.Pairwise.cons ?_ (ih _)
      intro b hb he
      exact (dedupHints_find t (hintKey x :: seen) b hb).1 (he ▸ List.mem_cons_self _ _)

/-- C3: the hint ranker emits at most 3 hints, pairwise distinct under the
case-insensitive whitespace-normalized key, all non-empty, preserving the
relative order of the surviving (stripped, non-empty) entries; each output
hint is the first surviving entry bearing its key; and `first_hint` is the
head of `hints_sorted`, or the no-hint sentinel when it is empty. -/
theorem claim3_hintRanker :
    ∀ hints : List String,
      (rankHints hints).length ≤ 3 ∧
      List.Pairwise (fun a b => hintKey a ≠ hintKey b) (rankHints hints) ∧
      (∀ h ∈ rankHints hints, h ≠ "") ∧
      (rankHints hints).Sublist ((hints.map stripWs).filter fun h => h ≠ "") ∧
      (∀ h ∈ rankHints hints,
        ((hints.map stripWs).filter fun h2 => h2 ≠ "").find?
          (fun h2 => hintKey h2 == hintKey h) = some h) ∧
      (∀ hs : List String, firstHint hs = hs.headD noHintSentinel) ∧
      firstHint [] = noHintSentinel := by
  intro hints
  refine ⟨?_, ?_, ?_, ?_, ?_, fun hs => rfl, rfl⟩
  · simp only [rankHints]
    exact List.length_take_le 3 _
  · exact ((dedupHints_pairwise _ []).sublist (List.take_sublist _ _))
  · intro h hh
    have hd : h ∈ dedupHints [] ((hints.map stripWs).filter fun h => h ≠ "") :=
      List.take_subset _ _ hh
    have hmem := (dedupHints_sublist _ []).subset hd
    exact of_decide_eq_true (List.mem_filter.mp hmem).2
  · exact (List.take_sublist _ _).trans (dedupHints_sublist _ [])
  · intro h hh
    have hd : h ∈ dedupHints [] ((hints.map stripWs).filter fun h => h ≠ "") :=
      List.take_subset _ _ hh
    exact (dedupHints_find _ [] h hd).2

/-- Witness for C3 on the spec's Scenario B hint list. -/
theorem claim3_witness :
    rankHints ["a", "a", "b", "c", "d"] = ["a", "b", "c"] ∧
    ((["a", "a", "b", "c", "d"].map stripWs).filter fun h2 => h2 ≠ "").find?
      (fun h2 => hintKey h2 == hintKey "a") = some "a" := by
  refine ⟨by decide, ?_⟩
  have h := (claim3_hintRanker ["a", "a", "b", "c", "d"]).2.2.2.2.1 "a" (by decide)
  simpa using h

theorem clampScore_of_range (q : ℚ) (h0 : 0 ≤ q) (h1 : q ≤ 100) : clampScore q = q := by
  unfold clampScore
  rw [min_eq_right h1, max_eq_right h0]

theorem filterMap_strElem_map (l : List String) :
    (l.map Raw.str).filterMap strElem = l := by
  induction l with
  | nil => rfl
  | cons x t ih => simp [strElem, ih]

theorem map_coerce_num_id (m : List (String × ℚ))
    (h : ∀ p ∈ m, 0 ≤ p.2 ∧ p.2 ≤ 100) :
    (m.map fun kv => (kv.1, Raw.num kv.2)).map (fun kv => (kv.1, coerceScore kv.2)) = m := by
  induction m with
  | nil => rfl
  | cons x t ih =>
    have hx := h x (List.mem_cons_self x t)
    simp only [List.map_cons]
    rw [ih fun p hp => h p (List.mem_cons_of_mem x hp)]
    simp [coerceScore, clampScore_of_range x.2 hx.1 hx.2]

/-- C6: feeding a serialized `NormalizedResult` back through the
normalizer's mapping branch reproduces it exactly (for results respecting
the score-range invariant established by normalization). -/
theorem claim6_normalize_idempotent :
    ∀ (parse : String → Option Raw) (nr : NormalizedResult),
      (∀ p ∈ nr.component_scores, 0 ≤ p.2 ∧ p.2 ≤ 100) →
      normalizeWith parse (some (toRawNR nr)) = nr := by
  intro parse nr h
  obtain ⟨pt, tp, da, sol, sa, cs, hsl⟩ := nr
  obtain ⟨steps, fa⟩ := sol
  have hcs : ∀ p ∈ cs, 0 ≤ p.2 ∧ p.2 ≤ 100 := h
  cases sa with
  | none =>
    show (⟨pt, tp, da, ⟨(steps.map Raw.str).filterMap strElem, fa⟩, none,
      ((cs.map fun kv => (kv.1, Raw.num kv.2)).map fun kv => (kv.1, coerceScore kv.2)),
      (hsl.map Raw.str).filterMap strElem⟩ : NormalizedResult) = _
    rw [filterMap_strElem_map, filterMap_strElem_map, map_coerce_num_id cs hcs]
  | some att =>
    show (⟨pt, tp, da, ⟨(steps.map Raw.str).filterMap strElem, fa⟩, some att,
      ((cs.map fun kv => (kv.1, Raw.num kv.2)).map fun kv => (kv.1, coerceScore kv.2)),
      (hsl.map Raw.str).filterMap strElem⟩ : NormalizedResult) = _
    rw [filterMap_strElem_map, filterMap_strElem_map, map_coerce_num_id cs hcs]

/-- Witness for C6 on a concrete normalized result. -/
theorem claim6_witness :
    normalizeWith (fun _ => none) (some (toRawNR nrC2)) = nrC2 :=
  claim6_normalize_idempotent (fun _ => none) nrC2 (by decide)

theorem mapM_strElem_map (l : List String) :
    (l.map Raw.str).mapM strElem = some l := by
  induction l with
  | nil => rfl
  | cons x t ih =>
    rw [List.map_cons, List.mapM_cons, ih]
    rfl

theorem parse_toJson_roundtrip (g : GradingResult) :
    parseGradingResult (gradingResultToJson g) = some g := by
  obtain ⟨pt, tp, da, sol, sa, sc, u, e, a2, hs, fh, ga, sf⟩ := g
  obtain ⟨steps, fa⟩ := sol
  have e1 := mapM_strElem_map steps
  have e2 := mapM_strElem_map hs
  cases sa with
  | none =>
    show Option.bind ((steps.map Raw.str).mapM strElem) _ = _
    rw [e1]
    show Option.bind ((hs.map Raw.str).mapM strElem) _ = _
    rw [e2]
    rfl
  | some att =>
    show Option.bind ((steps.map Raw.str).mapM strElem) _ = _
    rw [e1]
    show Option.bind ((hs.map Raw.str).mapM strElem) _ = _
    rw [e2]
    rfl

/-- C7: assembling a `GradingResult`, serializing it to the JSON result
artifact, and parsing the artifact back yields the assembled result
field-for-field. -/
theorem claim7_roundTrip :
    ∀ (nr : NormalizedResult) (generatedAt sourceFile : String),
      parseGradingResult (gradingResultToJson (assemble nr generatedAt sourceFile)) =
        some (assemble nr generatedAt sourceFile) :=
  fun nr ga sf => parse_toJson_roundtrip (assemble nr ga sf)

/-! ### Token decomposition lemmas for `personalizeText` -/

theorem untokenize_cons (t : Tok) (ts : List Tok) :
    untokenize (t :: ts) = t.chars ++ untokenize ts := by
  simp [untokenize]

theorem consWord_nil (c : Char) : consWord c [] = [Tok.word [c]] := rfl

theorem consWord_word (c : Char) (w : List Char) (rest : List Tok) :
    consWord c (Tok.word w :: rest) = Tok.word (c :: w) :: rest := rfl

theorem consWord_sep (c : Char) (g : List Char) (rest : List Tok) :
    consWord c (Tok.sep g :: rest) = Tok.word [c] :: Tok.sep g :: rest := rfl

theorem consSep_nil (c : Char) : consSep c [] = [Tok.sep [c]] := rfl

theorem consSep_sep (c : Char) (g : List Char) (rest : List Tok) :
    consSep c (Tok.sep g :: rest) = Tok.sep (c :: g) :: rest := rfl

theorem consSep_word (c : Char) (w : List Char) (rest : List Tok) :
    consSep c (Tok.word w :: rest) = Tok.sep [c] :: Tok.word w :: rest := rfl

theorem consWord_head (c : Char) (ts : List Tok) (h : headIsWord ts = false) :
    consWord c ts = Tok.word [c] :: ts := by
  cases ts with
  | nil => rfl
  | cons t rest =>
    cases t with
    | word w => simp [headIsWord] at h
    | sep g => rfl

theorem consSep_head (c : Char) (ts : List Tok) (h : headIsSep ts = false) :
    consSep c ts = Tok.sep [c] :: ts := by
  cases ts with
  | nil => rfl
  | cons t rest =>
    cases t with
    | word w => rfl
    | sep g => simp [headIsSep] at h

theorem wf_tail {t : Tok} {ts : List Tok} (h : WF (t :: ts)) : WF ts :=
  ⟨fun x hx => h.1 x (List.mem_cons_of_mem t hx), h.2.tail⟩

theorem consWord_wf {c : Char} {ts : List Tok} (hc : isWordChar c = true) (h : WF ts) :
    WF (consWord c ts) := by
  cases ts with
  | nil =>
    rw [consWord_nil]
    refine ⟨?_, by simp⟩
    intro t ht
    rcases List.mem_singleton.mp ht with rfl
    exact ⟨by simp, by intro x hx; rcases List.mem_singleton.mp hx with rfl; exact hc⟩
  | cons t rest =>
    obtain ⟨hok, hchain⟩ := h
    cases t with
    | word w =>
      rw [consWord_word]
      have hw := hok (Tok.word w) (List.mem_cons_self _ _)
      refine ⟨?_, ?_⟩
      · intro t ht
        rcases List.mem_cons.mp ht with rfl | ht2
        · refine ⟨by simp, ?_⟩
          intro x hx
          rcases List.mem_cons.mp hx with rfl | hx2
          · exact hc
          · exact hw.2 x hx2
        · exact hok t (List.mem_cons_of_mem _ ht2)
      · cases rest with
        | nil => simp
        | cons t2 r2 =>
          rw [List.chain'_cons] at hchain ⊢
          exact ⟨hchain.1, hchain.2⟩
    | sep g =>
      rw [consWord_sep]
      refine ⟨?_, ?_⟩
      · intro t ht
        rcases List.mem_cons.mp ht with rfl | ht2
        · exact ⟨by simp, by intro x hx; rcases List.mem_singleton.mp hx with rfl; exact hc⟩
        · exact hok t ht2
      · rw [List.chain'_cons]
        exact ⟨by simp [Tok.isWordTok], hchain⟩

theorem consSep_wf {c : Char} {ts : List Tok} (hc : isWordChar c = false) (h : WF ts) :
    WF (consSep c ts) := by
  cases ts with
  | nil =>
    rw [consSep_nil]
    refine ⟨?_, by simp⟩
    intro t ht
    rcases List.mem_singleton.mp ht with rfl
    exact ⟨by simp, by intro x hx; rcases List.mem_singleton.mp hx with rfl; exact hc⟩
  | cons t rest =>
    obtain ⟨hok, hchain⟩ := h
    cases t with
    | sep g =>
      rw [consSep_sep]
      have hg := hok (Tok.sep g) (List.mem_cons_self _ _)
      refine ⟨?_, ?_⟩
      · intro t ht
        rcases List.mem_cons.mp ht with rfl | ht2
        · refine ⟨by simp, ?_⟩
          intro x hx
          rcases List.mem_cons.mp hx with rfl | hx2
          · exact hc
          · exact hg.2 x hx2
        · exact hok t (List.mem_cons_of_mem _ ht2)
      · cases rest with
        | nil => simp
        | cons t2 r2 =>
          rw [List.chain'_cons] at hchain ⊢
          exact ⟨hchain.1, hchain.2⟩
    | word w =>
      rw [consSep_word]
      refine ⟨?_, ?_⟩
      · intro t ht
        rcases List.mem_cons.mp ht with rfl | ht2
        · exact ⟨by simp, by intro x hx; rcases List.mem_singleton.mp hx with rfl; exact hc⟩
        · exact hok t ht2
      · rw [List.chain'_cons]
        exact ⟨by simp [Tok.isWordTok], hchain⟩

theorem tokenize_wf (cs : List Char) : WF (tokenize cs) := by
  induction cs with
  | nil => exact ⟨by simp [tokenize], by simp [tokenize]⟩
  | cons c cs ih =>
    simp only [tokenize]
    split_ifs with hc
    · exact consWord_wf hc ih
    · exact consSep_wf (by simpa using hc) ih

theorem tokenize_word_append (w : List Char) (r : List Char) :
    w ≠ [] → (∀ c ∈ w, isWordChar c = true) → headIsWord (tokenize r) = false →
    tokenize (w ++ r) = Tok.word w :: tokenize r := by
  induction w with
  | nil => intro h; cases h rfl
  | cons c w2 ih =>
    intro _ hw hr
    cases w2 with
    | nil =>
      show tokenize (c :: r) = _
      simp only [tokenize]
      rw [if_pos (hw c (List.mem_cons_self _ _))]
      exact consWord_head c _ hr
    | cons c2 w3 =>
      have ih2 := ih (by simp) (fun x hx => hw x (List.mem_cons_of_mem c hx)) hr
      show (if isWordChar c = true then consWord c (tokenize (c2 :: w3 ++ r))
        else consSep c (tokenize (c2 :: w3 ++ r))) = _
      rw [if_pos (hw c (List.mem_cons_self _ _)), ih2]
      rfl

theorem tokenize_sep_append (g : List Char) (r : List Char) :
    g ≠ [] → (∀ c ∈ g, isWordChar c = false) → headIsSep (tokenize r) = false →
    tokenize (g ++ r) = Tok.sep g :: tokenize r := by
  induction g with
  | nil => intro h; cases h rfl
  | cons c g2 ih =>
    intro _ hg hr
    cases g2 with
    | nil =>
      show tokenize (c :: r) = _
      simp only [tokenize]
      rw [if_neg (by simp [hg c (List.mem_cons_self _ _)])]
      exact consSep_head c _ hr
    | cons c2 g3 =>
      have ih2 := ih (by simp) (fun x hx => hg x (List.mem_cons_of_mem c hx)) hr
      show (if isWordChar c = true then consWord c (tokenize (c2 :: g3 ++ r))
        else consSep c (tokenize (c2 :: g3 ++ r))) = _
      rw [if_neg (by simp [hg c (List.mem_cons_self _ _)]), ih2]
      rfl

theorem tokenize_untokenize : ∀ ts : List Tok, WF ts → tokenize (untokenize ts) = ts := by
  intro ts
  induction ts with
  | nil => intro _; rfl
  | cons t rest ih =>
    intro hwf
    have hrec := ih (wf_tail hwf)
    cases t with
    | word w =>
      have hok : TokOk (Tok.word w) := hwf.1 _ (List.mem_cons_self _ _)
      have hhead : headIsWord (tokenize (untokenize rest)) = false := by
        rw [hrec]
        cases rest with
        | nil => rfl
        | cons t2 r2 =>
          cases t2 with
          | word w2 =>
            exfalso
            have hch := hwf.2
            rw [List.chain'_cons] at hch
            exact hch.1 rfl
          | sep g2 => rfl
      rw [untokenize_cons]
      show tokenize (w ++ untokenize rest) = _
      rw [tokenize_word_append w (untokenize rest) hok.1 hok.2 hhead, hrec]
    | sep g =>
      have hok : TokOk (Tok.sep g) := hwf.1 _ (List.mem_cons_self _ _)
      have hhead : headIsSep (tokenize (untokenize rest)) = false := by
        rw [hrec]
        cases rest with
        | nil => rfl
        | cons t2 r2 =>
          cases t2 with
          | sep g2 =>
            exfalso
            have hch := hwf.2
            rw [List.chain'_cons] at hch
            exact hch.1 rfl
          | word w2 => rfl
      rw [untokenize_cons]
      show tokenize (g ++ untokenize rest) = _
      rw [tokenize_sep_append g (untokenize rest) hok.1 hok.2 hhead, hrec]

theorem headIsWord_cons (t : Tok) (r : List Tok) :
    headIsWord (t :: r) = t.isWordTok := by
  cases t <;> rfl

/-- Transfer a chain head across a tail-transformation that preserves the
head kind and emptiness. -/
theorem chain_rel_cons {a : Tok} {ts ts2 : List Tok}
    (hpres : headIsWord ts2 = headIsWord ts)
    (hnil : ts = [] → ts2 = [])
    (hch : List.Chain' (fun x y => x.isWordTok ≠ y.isWordTok) (a :: ts))
    (hch2 : List.Chain' (fun x y => x.isWordTok ≠ y.isWordTok) ts2) :
    List.Chain' (fun x y => x.isWordTok ≠ y.isWordTok) (a :: ts2) := by
  cases ts with
  | nil =>
    rw [hnil rfl]
    simp
  | cons t r =>
    cases ts2 with
    | nil => simp
    | cons t2 r2 =>
      rw [List.chain'_cons] at hch ⊢
      refine ⟨?_, hch2⟩
      have h1 : t2.isWordTok = t.isWordTok := by
        rw [← headIsWord_cons t2 r2, hpres, headIsWord_cons]
      rw [h1]
      exact hch.1

theorem wf_map (f : Tok → Tok) (hkind : ∀ t, (f t).isWordTok = t.isWordTok)
    (hok : ∀ t, TokOk t → TokOk (f t)) :
    ∀ ts : List Tok, WF ts → WF (ts.map f) := by
  intro ts h
  refine ⟨?_, ?_⟩
  · intro t ht
    rcases List.mem_map.mp ht with ⟨t0, ht0, rfl⟩
    exact hok t0 (h.1 t0 ht0)
  · rw [List.chain'_map]
    refine h.2.imp ?_
    intro a b hab
    rw [hkind a, hkind b]
    exact hab

theorem replaceWordTok_kind (targets : List (List Char)) (repl : List Char) (t : Tok) :
    (replaceWordTok targets repl t).isWordTok = t.isWordTok := by
  cases t with
  | word w =>
    simp only [replaceWordTok]
    split_ifs <;> rfl
  | sep g => rfl

theorem replaceWordTok_ok (targets : List (List Char)) (repl : List Char)
    (hne : repl ≠ []) (hrepl : ∀ c ∈ repl, isWordChar c = true) (t : Tok) (h : TokOk t) :
    TokOk (replaceWordTok targets repl t) := by
  cases t with
  | word w =>
    simp only [replaceWordTok]
    split_ifs
    · exact ⟨hne, hrepl⟩
    · exact h
  | sep g => exact h

theorem replaceWordTokCI_kind (target repl : List Char) (t : Tok) :
    (replaceWordTokCI target repl t).isWordTok = t.isWordTok := by
  cases t with
  | word w =>
    simp only [replaceWordTokCI]
    split_ifs <;> rfl
  | sep g => rfl

theorem replaceWordTokCI_ok (target repl : List Char)
    (hne : repl ≠ []) (hrepl : ∀ c ∈ repl, isWordChar c = true) (t : Tok) (h : TokOk t) :
    TokOk (replaceWordTokCI target repl t) := by
  cases t with
  | word w =>
    simp only [replaceWordTokCI]
    split_ifs
    · exact ⟨hne, hrepl⟩
    · exact h
  | sep g => exact h

theorem wf_passStudents {ts : List Tok} (h : WF ts) : WF (passStudents ts) :=
  wf_map _ (replaceWordTok_kind _ _)
    (replaceWordTok_ok _ _ (by decide) (by decide)) ts h

theorem wf_passStudent {ts : List Tok} (h : WF ts) : WF (passStudent ts) :=
  wf_map _ (replaceWordTok_kind _ _)
    (replaceWordTok_ok _ _ (by decide) (by decide)) ts h

theorem wf_passTheir {ts : List Tok} (h : WF ts) : WF (passTheir ts) :=
  wf_map _ (replaceWordTokCI_kind _ _)
    (replaceWordTokCI_ok _ _ (by decide) (by decide)) ts h

theorem wf_passThey {ts : List Tok} (h : WF ts) : WF (passThey ts) :=
  wf_map _ (replaceWordTokCI_kind _ _)
    (replaceWordTokCI_ok _ _ (by decide) (by decide)) ts h

theorem passTheStudent_nil : passTheStudent [] = [] := rfl

theorem passTheStudent_sep (g : List Char) (rest : List Tok) :
    passTheStudent (Tok.sep g :: rest) = Tok.sep g :: passTheStudent rest := rfl

theorem passTheStudent_pos (w g v : List Char) (rest : List Tok)
    (h : List.map Char.toLower w = "the".data ∧ g = [' '] ∧
      List.map Char.toLower v = "student".data) :
    passTheStudent (Tok.word w :: Tok.sep g :: Tok.word v :: rest) =
      Tok.word "you".data :: passTheStudent rest := by
  show (if List.map Char.toLower w = "the".data ∧ g = [' '] ∧
      List.map Char.toLower v = "student".data then
      Tok.word "you".data :: passTheStudent rest
    else Tok.word w :: passTheStudent (Tok.sep g :: Tok.word v :: rest)) = _
  rw [if_pos h]

theorem passTheStudent_neg (w g v : List Char) (rest : List Tok)
    (h : ¬(List.map Char.toLower w = "the".data ∧ g = [' '] ∧
      List.map Char.toLower v = "student".data)) :
    passTheStudent (Tok.word w :: Tok.sep g :: Tok.word v :: rest) =
      Tok.word w :: passTheStudent (Tok.sep g :: Tok.word v :: rest) := by
  show (if List.map Char.toLower w = "the".data ∧ g = [' '] ∧
      List.map Char.toLower v = "student".data then
      Tok.word "you".data :: passTheStudent rest
    else Tok.word w :: passTheStudent (Tok.sep g :: Tok.word v :: rest)) = _
  rw [if_neg h]

theorem passTheStudent_word_other (w : List Char) (rest : List Tok)
    (h : ∀ (g v : List Char) (rest2 : List Tok),
      rest = Tok.sep g :: Tok.word v :: rest2 → False) :
    passTheStudent (Tok.word w :: rest) = Tok.word w :: passTheStudent rest := by
  cases rest with
  | nil => rfl
  | cons t rest2 =>
    cases t with
    | word w2 => rfl
    | sep g =>
      cases rest2 with
      | nil => rfl
      | cons t3 r3 =>
        cases t3 with
        | sep g3 => rfl
        | word v => exact absurd rfl (h g v r3)

theorem passTheStudent_headIsWord (ts : List Tok) :
    headIsWord (passTheStudent ts) = headIsWord ts := by
  induction ts using passTheStudent.induct with
  | case1 => rfl
  | case2 g rest ih => rw [passTheStudent_sep]; rfl
  | case3 w g v rest h ih => rw [passTheStudent_pos w g v rest h]; rfl
  | case4 w g v rest h ih => rw [passTheStudent_neg w g v rest h]; rfl
  | case5 w rest h ih => rw [passTheStudent_word_other w rest h]; rfl

theorem passTheStudent_nil_of_nil {ts : List Tok} (h : ts = []) :
    passTheStudent ts = [] := by
  rw [h, passTheStudent_nil]

theorem wf_passTheStudent : ∀ ts, WF ts → WF (passTheStudent ts) := by
  intro ts
  induction ts using passTheStudent.induct with
  | case1 => intro h; exact h
  | case2 g rest ih =>
    intro h
    rw [passTheStudent_sep]
    have hrest := ih (wf_tail h)
    refine ⟨?_, ?_⟩
    · intro t ht
      rcases List.mem_cons.mp ht with rfl | ht2
      · exact h.1 _ (List.mem_cons_self _ _)
      · exact hrest.1 t ht2
    · exact chain_rel_cons (passTheStudent_headIsWord rest) passTheStudent_nil_of_nil
        h.2 hrest.2
  | case3 w g v rest hcond ih =>
    intro h
    rw [passTheStudent_pos w g v rest hcond]
    have hrest := ih (wf_tail (wf_tail (wf_tail h)))
    refine ⟨?_, ?_⟩
    · intro t ht
      rcases List.mem_cons.mp ht with rfl | ht2
      · exact ⟨by decide, by decide⟩
      · exact hrest.1 t ht2
    · have hch3 : List.Chain' (fun x y => x.isWordTok ≠ y.isWordTok)
        (Tok.word v :: rest) := h.2.tail.tail
      rw [List.chain'_cons'] at hch3
      refine chain_rel_cons (passTheStudent_headIsWord rest) passTheStudent_nil_of_nil
        ?_ hrest.2
      rw [List.chain'_cons']
      exact ⟨fun x hx => hch3.1 x hx, hch3.2⟩
  | case4 w g v rest hcond ih =>
    intro h
    rw [passTheStudent_neg w g v rest hcond]
    have hrest := ih (wf_tail h)
    refine ⟨?_, ?_⟩
    · intro t ht
      rcases List.mem_cons.mp ht with rfl | ht2
      · exact h.1 _ (List.mem_cons_self _ _)
      · exact hrest.1 t ht2
    · rw [List.chain'_cons']
      refine ⟨?_, hrest.2⟩
      intro x hx
      rw [passTheStudent_sep] at hx
      simp only [List.head?_cons, Option.mem_def, Option.some.injEq] at hx
      subst hx
      simp [Tok.isWordTok]
  | case5 w rest hother ih =>
    intro h
    rw [passTheStudent_word_other w rest hother]
    have hrest := ih (wf_tail h)
    refine ⟨?_, ?_⟩
    · intro t ht
      rcases List.mem_cons.mp ht with rfl | ht2
      · exact h.1 _ (List.mem_cons_self _ _)
      · exact hrest.1 t ht2
    · exact chain_rel_cons (passTheStudent_headIsWord rest) passTheStudent_nil_of_nil
        h.2 hrest.2

theorem dropLead_eq (w g : List Char) (rest : List Tok) :
    dropLead (Tok.word w :: Tok.sep g :: rest) =
      (match g.dropWhile isColonDashSpace with
       | [] => rest
       | g2 => Tok.sep g2 :: rest) := rfl

theorem wordToks_cons_word (w : List Char) (ts : List Tok) :
    wordToks (Tok.word w :: ts) = w :: wordToks ts := rfl

theorem wordToks_cons_sep (g : List Char) (ts : List Tok) :
    wordToks (Tok.sep g :: ts) = wordToks ts := rfl

theorem mem_of_mem_dropWhile {p : Char → Bool} {c : Char} :
    ∀ {l : List Char}, c ∈ l.dropWhile p → c ∈ l := by
  intro l
  induction l with
  | nil => intro h; simp at h
  | cons x t ih =>
    intro h
    rw [List.dropWhile_cons] at h
    split_ifs at h with hx
    · exact List.mem_cons_of_mem x (ih h)
    · exact h

theorem wf_dropLead : ∀ ts, WF ts → WF (dropLead ts) := by
  intro ts h
  cases ts with
  | nil => exact h
  | cons t rest =>
    cases t with
    | sep g => exact h
    | word w =>
      cases rest with
      | nil => exact h
      | cons t2 rest2 =>
        cases t2 with
        | word w2 => exact h
        | sep g =>
          rw [dropLead_eq]
          rcases hdrop : g.dropWhile isColonDashSpace with - | ⟨d, g3⟩
          · exact wf_tail (wf_tail h)
          · have hg : TokOk (Tok.sep g) :=
              h.1 _ (List.mem_cons_of_mem _ (List.mem_cons_self _ _))
            dsimp only
            refine ⟨?_, ?_⟩
            · intro t ht
              rcases List.mem_cons.mp ht with rfl | ht2
              · refine ⟨by simp, ?_⟩
                intro c hc
                exact hg.2 c (mem_of_mem_dropWhile (hdrop ▸ hc))
              · exact (wf_tail (wf_tail h)).1 t ht2
            · have hch : List.Chain' (fun a b => a.isWordTok ≠ b.isWordTok)
                  (Tok.sep g :: rest2) := h.2.tail
              cases rest2 with
              | nil => simp
              | cons t3 r3 =>
                rw [List.chain'_cons] at hch ⊢
                exact ⟨hch.1, hch.2⟩

theorem wordToks_dropLead : ∀ ts, ∀ w ∈ wordToks (dropLead ts), w ∈ wordToks ts := by
  intro ts w hw
  cases ts with
  | nil => exact hw
  | cons t rest =>
    cases t with
    | sep g => exact hw
    | word w0 =>
      cases rest with
      | nil => exact hw
      | cons t2 rest2 =>
        cases t2 with
        | word w2 => exact hw
        | sep g =>
          rw [dropLead_eq] at hw
          rcases hdrop : g.dropWhile isColonDashSpace with - | ⟨d, g3⟩ <;> rw [hdrop] at hw
          · show w ∈ wordToks (Tok.word w0 :: Tok.sep g :: rest2)
            rw [wordToks_cons_word, wordToks_cons_sep]
            exact List.mem_cons_of_mem _ hw
          · rw [wordToks_cons_sep] at hw
            rw [wordToks_cons_word, wordToks_cons_sep]
            exact List.mem_cons_of_mem _ hw

theorem wf_passLead : ∀ ts, WF ts → WF (passLead ts) := by
  intro ts h
  cases ts with
  | nil =>
    show WF (if leadMatch [] = true then dropLead [] else [])
    exact h
  | cons t rest =>
    cases t with
    | sep g =>
      show WF (if (g.all isJsSpace && leadMatch rest) = true then dropLead rest
        else Tok.sep g :: rest)
      split_ifs with hcond
      · exact wf_dropLead rest (wf_tail h)
      · exact h
    | word w =>
      show WF (if leadMatch (Tok.word w :: rest) = true then dropLead (Tok.word w :: rest)
        else Tok.word w :: rest)
      split_ifs with hcond
      · exact wf_dropLead _ h
      · exact h

theorem wordToks_passLead : ∀ ts, ∀ w ∈ wordToks (passLead ts), w ∈ wordToks ts := by
  intro ts w hw
  cases ts with
  | nil => exact hw
  | cons t rest =>
    cases t with
    | sep g =>
      have hw2 : w ∈ wordToks (if (g.all isJsSpace && leadMatch rest) = true
          then dropLead rest else Tok.sep g :: rest) := hw
      split_ifs at hw2 with hcond
      · rw [wordToks_cons_sep]
        exact wordToks_dropLead rest w hw2
      · exact hw2
    | word w0 =>
      have hw2 : w ∈ wordToks (if leadMatch (Tok.word w0 :: rest) = true
          then dropLead (Tok.word w0 :: rest) else Tok.word w0 :: rest) := hw
      split_ifs at hw2 with hcond
      · exact wordToks_dropLead _ w hw2
      · exact hw2

theorem wordToks_map_replace (targets : List (List Char)) (repl : List Char) :
    ∀ ts : List Tok, ∀ w ∈ wordToks (ts.map (replaceWordTok targets repl)),
      w = repl ∨ (w ∈ wordToks ts ∧ w ∉ targets) := by
  intro ts
  induction ts with
  | nil =>
    intro w hw
    simp [wordToks] at hw
  | cons t rest ih =>
    intro w hw
    cases t with
    | word v =>
      rw [List.map_cons] at hw
      by_cases hv : v ∈ targets
      · rw [show replaceWordTok targets repl (Tok.word v) = Tok.word repl by
          simp [replaceWordTok, hv]] at hw
        rw [wordToks_cons_word] at hw
        rcases List.mem_cons.mp hw with rfl | hw2
        · exact Or.inl rfl
        · rcases ih w hw2 with h | ⟨h1, h2⟩
          · exact Or.inl h
          · refine Or.inr ⟨?_, h2⟩
            rw [wordToks_cons_word]
            exact List.mem_cons_of_mem _ h1
      · rw [show replaceWordTok targets repl (Tok.word v) = Tok.word v by
          simp [replaceWordTok, hv]] at hw
        rw [wordToks_cons_word] at hw
        rcases List.mem_cons.mp hw with rfl | hw2
        · refine Or.inr ⟨?_, hv⟩
          rw [wordToks_cons_word]
          exact List.mem_cons_self _ _
        · rcases ih w hw2 with h | ⟨h1, h2⟩
          · exact Or.inl h
          · refine Or.inr ⟨?_, h2⟩
            rw [wordToks_cons_word]
            exact List.mem_cons_of_mem _ h1
    | sep g =>
      rw [List.map_cons, show replaceWordTok targets repl (Tok.sep g) = Tok.sep g from rfl,
        wordToks_cons_sep] at hw
      rw [wordToks_cons_sep]
      exact (ih w hw).imp id (fun hh => hh)

theorem wordToks_map_replaceCI (target repl : List Char) :
    ∀ ts : List Tok, ∀ w ∈ wordToks (ts.map (replaceWordTokCI target repl)),
      w = repl ∨ w ∈ wordToks ts := by
  intro ts
  induction ts with
  | nil =>
    intro w hw
    simp [wordToks] at hw
  | cons t rest ih =>
    intro w hw
    cases t with
    | word v =>
      rw [List.map_cons] at hw
      by_cases hv : v.map Char.toLower = target
      · rw [show replaceWordTokCI target repl (Tok.word v) = Tok.word repl by
          simp [replaceWordTokCI, hv]] at hw
        rw [wordToks_cons_word] at hw
        rcases List.mem_cons.mp hw with rfl | hw2
        · exact Or.inl rfl
        · rcases ih w hw2 with h | h1
          · exact Or.inl h
          · refine Or.inr ?_
            rw [wordToks_cons_word]
            exact List.mem_cons_of_mem _ h1
      · rw [show replaceWordTokCI target repl (Tok.word v) = Tok.word v by
          simp [replaceWordTokCI, hv]] at hw
        rw [wordToks_cons_word] at hw
        rcases List.mem_cons.mp hw with rfl | hw2
        · refine Or.inr ?_
          rw [wordToks_cons_word]
          exact List.mem_cons_self _ _
        · rcases ih w hw2 with h | h1
          · exact Or.inl h
          · refine Or.inr ?_
            rw [wordToks_cons_word]
            exact List.mem_cons_of_mem _ h1
    | sep g =>
      rw [List.map_cons, show replaceWordTokCI target repl (Tok.sep g) = Tok.sep g from rfl,
        wordToks_cons_sep] at hw
      rw [wordToks_cons_sep]
      exact ih w hw

theorem wordToks_passTheStudent :
    ∀ ts, ∀ w ∈ wordToks (passTheStudent ts), w = "you".data ∨ w ∈ wordToks ts := by
  intro ts
  induction ts using passTheStudent.induct with
  | case1 =>
    intro w hw
    simp [passTheStudent_nil, wordToks] at hw
  | case2 g rest ih =>
    intro w hw
    rw [passTheStudent_sep, wordToks_cons_sep] at hw
    rw [wordToks_cons_sep]
    exact ih w hw
  | case3 w0 g v rest hcond ih =>
    intro w hw
    rw [passTheStudent_pos w0 g v rest hcond, wordToks_cons_word] at hw
    rcases List.mem_cons.mp hw with rfl | hw2
    · exact Or.inl rfl
    · rcases ih w hw2 with h | h1
      · exact Or.inl h
      · refine Or.inr ?_
        rw [wordToks_cons_word, wordToks_cons_sep, wordToks_cons_word]
        exact List.mem_cons_of_mem _ (List.mem_cons_of_mem _ h1)
  | case4 w0 g v rest hcond ih =>
    intro w hw
    rw [passTheStudent_neg w0 g v rest hcond, wordToks_cons_word] at hw
    rcases List.mem_cons.mp hw with rfl | hw2
    · refine Or.inr ?_
      rw [wordToks_cons_word]
      exact List.mem_cons_self _ _
    · rcases ih w hw2 with h | h1
      · exact Or.inl h
      · refine Or.inr ?_
        rw [wordToks_cons_word]
        exact List.mem_cons_of_mem _ h1
  | case5 w0 rest hother ih =>
    intro w hw
    rw [passTheStudent_word_other w0 rest hother, wordToks_cons_word] at hw
    rcases List.mem_cons.mp hw with rfl | hw2
    · refine Or.inr ?_
      rw [wordToks_cons_word]
      exact List.mem_cons_self _ _
    · rcases ih w hw2 with h | h1
      · exact Or.inl h
      · refine Or.inr ?_
        rw [wordToks_cons_word]
        exact List.mem_cons_of_mem _ h1

theorem wordToks_pipeline_safe :
    ∀ ts : List Tok, ∀ w ∈ wordToks (personalizePipeline ts),
      w ∉ forbiddenStudentWords := by
  intro ts w hw
  rw [personalizePipeline] at hw
  have h6 := wordToks_passLead _ w hw
  rcases wordToks_map_replaceCI _ _ _ w h6 with rfl | h5
  · decide
  rcases wordToks_map_replaceCI _ _ _ w h5 with rfl | h4
  · decide
  rcases wordToks_passTheStudent _ w h4 with rfl | h3
  · decide
  rcases wordToks_map_replace _ _ _ w h3 with rfl | ⟨h2, hnot2⟩
  · decide
  rcases wordToks_map_replace _ _ _ w h2 with rfl | ⟨h1, hnot1⟩
  · decide
  intro hcon
  simp only [forbiddenStudentWords, List.mem_cons, List.not_mem_nil, or_false] at hcon
  simp only [List.mem_cons, List.not_mem_nil, or_false, not_or] at hnot1 hnot2
  rcases hcon with h | h | h | h
  · exact hnot2.1 h
  · exact hnot2.2 h
  · exact hnot1.1 h
  · exact hnot1.2 h

/-- C9 (amended): `personalizeText` returns falsy inputs (null modelled as
`none`, and the empty string) unchanged; its output contains no standalone
word equal to "student", "Student", "students" or "Students" (other
casings such as "STUDENT" may remain); a leading prefix in a casing the
standalone-word replacements leave alone, such as "STUDENT:", is removed,
while the literal leading "Student:" is instead rewritten to "you:" by the
earlier standalone-word replacement. -/
theorem claim9_personalizeText :
    (∀ s : String, ∀ w ∈ standaloneWords (personalizeText s),
      w ∉ forbiddenStudentWords) ∧
    personalizeTextOpt none = none ∧
    personalizeText "" = "" ∧
    personalizeText "Student: hi" = "you: hi" ∧
    personalizeText "STUDENT: hi" = "hi" := by
  refine ⟨?_, rfl, rfl, by decide, by decide⟩
  intro s w hw
  by_cases hemp : s.data.isEmpty
  · rw [personalizeText, if_pos hemp] at hw
    have hnil : s.data = [] := List.isEmpty_iff.mp hemp
    rw [standaloneWords, hnil] at hw
    simp [tokenize, wordToks] at hw
  · rw [personalizeText, if_neg hemp] at hw
    have hwf : WF (personalizePipeline (tokenize s.data)) := by
      rw [personalizePipeline]
      exact wf_passLead _ (wf_passThey (wf_passTheir
        (wf_passTheStudent _ (wf_passStudent (wf_passStudents (tokenize_wf s.data))))))
    rw [standaloneWords,
      show (⟨untokenize (personalizePipeline (tokenize s.data))⟩ : String).data =
        untokenize (personalizePipeline (tokenize s.data)) from rfl,
      tokenize_untokenize _ hwf] at hw
    exact wordToks_pipeline_safe _ w hw

/-- Witness for C9 at a concrete input whose surviving word the theorem
certifies. -/
theorem claim9_witness :
    ("works".data ∈ standaloneWords (personalizeText "the student works")) ∧
    "works".data ∉ forbiddenStudentWords :=
  ⟨by decide, claim9_personalizeText.1 "the student works" "works".data (by decide)⟩

/-- Counterexample to C9 as stated: the claim says a leading "Student:"
prefix is removed, but on "Student: hi" the code first rewrites the
standalone word "Student" to "you", producing "you: hi" rather than
"hi". -/
theorem claim9_counterexample :
    personalizeText "Student: hi" = "you: hi" ∧ personalizeText "Student: hi" ≠ "hi" := by
  refine ⟨by decide, by decide⟩

end MathSight
